import Mathlib

set_option maxRecDepth 100000

/-!
A verification development for the distributed hashed ElGamal library
(Go package `elgamal` with its Schnorr-group and randomness utilities).

The embedding is shallow: arbitrary-precision integers (`big.Int`) become `Nat`,
byte strings become `List Nat`, and each randomized operation takes its random
draws as explicit arguments (a prime drawn by `crypto/rand.Prime`, byte streams
read by `crypto/rand.Read`, field elements drawn by the field's `Rand`).  A Go
computation yields an `Outcome`: a value, a typed error, a runtime fault (panic),
or `diverge` when a rejection-sampling loop outlives the supplied draws.  The two
external collaborators of the library (the finite-field package `gf` and the
polynomial secret-sharing package `secretshare`, from the separate repository
`lavode/secret-sharing`) are not part of this repository; their operations are
modelled from the spec and from the repository's own test vectors, and are marked
as such in their doc comments.  SHA-512 is implemented in full (FIPS 180-4),
modelling `crypto/sha512.Sum512`.
-/

namespace DistElgamal


/-- Big-endian byte string to natural number, as Go's `big.Int.SetBytes`. -/
def bytesToNat (bs : List Nat) : Nat := bs.foldl (fun acc b => acc * 256 + b) 0

/-- Fuel-based helper for `bitLen`; the fuel is an upper bound on the count. -/
def bitLenAux : Nat → Nat → Nat
  | 0, _ => 0
  | fuel + 1, n => if n = 0 then 0 else bitLenAux fuel (n / 2) + 1

/-- Number of binary digits, as Go's `big.Int.BitLen` (0 for 0). -/
def bitLen (n : Nat) : Nat := bitLenAux n n

/-- Big-endian encoding of `n` into exactly `k` bytes. -/
def natToBytesFixed (k n : Nat) : List Nat :=
  (List.range k).map (fun i => n >>> (8 * (k - 1 - i)) % 256)

/-- Minimal big-endian encoding, as Go's `big.Int.Bytes` (empty for 0). -/
def natToBytes (n : Nat) : List Nat := natToBytesFixed ((bitLen n + 7) / 8) n

/-- Modular exponentiation, as the field collaborator's `Exp`. -/
def powMod (b e m : Nat) : Nat := b ^ e % m

/-- Modular multiplication, as the field collaborator's `Mul`. -/
def mulMod (a b m : Nat) : Nat := a * b % m

/-- Modular addition, as the field collaborator's `Add`. -/
def addMod (a b m : Nat) : Nat := (a + b) % m

/-- Modular difference of two naturals, in `[0, m)`. -/
def subMod (a b m : Nat) : Nat := (((a : Int) - (b : Int)) % (m : Int)).toNat

/-- Trial-division primality test.  This models Go's `big.Int.ProbablyPrime(32)`,
which is exact on every modulus this development evaluates it at. -/
def isPrime (n : Nat) : Bool :=
  decide (2 ≤ n) && (List.range (n - 2)).all (fun d => n % (d + 2) != 0)

/-- Right-rotation of a 64-bit word. -/
def rotr (x n : Nat) : Nat := ((x >>> n) ||| (x <<< (64 - n))) % 2 ^ 64

def shaCh (x y z : Nat) : Nat := (x &&& y) ^^^ ((x ^^^ (2 ^ 64 - 1)) &&& z)

def shaMaj (x y z : Nat) : Nat := (x &&& y) ^^^ (x &&& z) ^^^ (y &&& z)

def bsig0 (x : Nat) : Nat := rotr x 28 ^^^ rotr x 34 ^^^ rotr x 39

def bsig1 (x : Nat) : Nat := rotr x 14 ^^^ rotr x 18 ^^^ rotr x 41

def ssig0 (x : Nat) : Nat := rotr x 1 ^^^ rotr x 8 ^^^ (x >>> 7)

def ssig1 (x : Nat) : Nat := rotr x 19 ^^^ rotr x 61 ^^^ (x >>> 6)

/-- SHA-512 round constants. -/
def shaK : List Nat := [
  4794697086780616226, 8158064640168781261, 13096744586834688815,
  16840607885511220156, 4131703408338449720, 6480981068601479193,
  10538285296894168987, 12329834152419229976, 15566598209576043074,
  1334009975649890238, 2608012711638119052, 6128411473006802146,
  8268148722764581231, 9286055187155687089, 11230858885718282805,
  13951009754708518548, 16472876342353939154, 17275323862435702243,
  1135362057144423861, 2597628984639134821, 3308224258029322869,
  5365058923640841347, 6679025012923562964, 8573033837759648693,
  10970295158949994411, 12119686244451234320, 12683024718118986047,
  13788192230050041572, 14330467153632333762, 15395433587784984357,
  489312712824947311, 1452737877330783856, 2861767655752347644,
  3322285676063803686, 5560940570517711597, 5996557281743188959,
  7280758554555802590, 8532644243296465576, 9350256976987008742,
  10552545826968843579, 11727347734174303076, 12113106623233404929,
  14000437183269869457, 14369950271660146224, 15101387698204529176,
  15463397548674623760, 17586052441742319658, 1182934255886127544,
  1847814050463011016, 2177327727835720531, 2830643537854262169,
  3796741975233480872, 4115178125766777443, 5681478168544905931,
  6601373596472566643, 7507060721942968483, 8399075790359081724,
  8693463985226723168, 9568029438360202098, 10144078919501101548,
  10430055236837252648, 11840083180663258601, 13761210420658862357,
  14299343276471374635, 14566680578165727644, 15097957966210449927,
  16922976911328602910, 17689382322260857208, 500013540394364858,
  748580250866718886, 1242879168328830382, 1977374033974150939,
  2944078676154940804, 3659926193048069267, 4368137639120453308,
  4836135668995329356, 5532061633213252278, 6448918945643986474,
  6902733635092675308, 7801388544844847127
]

/-- Working state of the SHA-512 compression function. -/
structure Sha512State where
  a : Nat
  b : Nat
  c : Nat
  d : Nat
  e : Nat
  f : Nat
  g : Nat
  h : Nat
deriving DecidableEq

def sha512Init : Sha512State :=
  ⟨7640891576956012808,
   13503953896175478587,
   4354685564936845355,
   11912009170470909681,
   5840696475078001361,
   11170449401992604703,
   2270897969802886507,
   6620516959819538809⟩

/-- One SHA-512 round; `kw` is the (already reduced) sum of round constant and
message-schedule word. -/
def shaRound (st : Sha512State) (kw : Nat) : Sha512State :=
  let t1 := (st.h + bsig1 st.e + shaCh st.e st.f st.g + kw) % 2 ^ 64
  let t2 := (bsig0 st.a + shaMaj st.a st.b st.c) % 2 ^ 64
  ⟨(t1 + t2) % 2 ^ 64, st.a, st.b, st.c, (st.d + t1) % 2 ^ 64, st.e, st.f, st.g⟩

/-- Extend the message schedule; `w` holds the schedule so far in reverse order. -/
def shaExtend : Nat → List Nat → List Nat
  | 0, w => w
  | n + 1, w =>
      let next := (ssig1 (w.getD 1 0) + w.getD 6 0 + ssig0 (w.getD 14 0) + w.getD 15 0) % 2 ^ 64
      shaExtend n (next :: w)

/-- The sixteen 64-bit words of one 128-byte block. -/
def shaBlockWords (blk : List Nat) : List Nat :=
  (List.range 16).map (fun j => bytesToNat ((blk.drop (8 * j)).take 8))

def shaCompress (hst : Sha512State) (blk : List Nat) : Sha512State :=
  let w := (shaExtend 64 (shaBlockWords blk).reverse).reverse
  let kw := List.zipWith (fun k x => (k + x) % 2 ^ 64) shaK w
  let fin := kw.foldl shaRound hst
  ⟨(hst.a + fin.a) % 2 ^ 64, (hst.b + fin.b) % 2 ^ 64, (hst.c + fin.c) % 2 ^ 64,
   (hst.d + fin.d) % 2 ^ 64, (hst.e + fin.e) % 2 ^ 64, (hst.f + fin.f) % 2 ^ 64,
   (hst.g + fin.g) % 2 ^ 64, (hst.h + fin.h) % 2 ^ 64⟩

/-- Merkle-Damgård padding: 0x80, zeros, 16-byte big-endian bit length. -/
def sha512Pad (msg : List Nat) : List Nat :=
  let l := msg.length
  msg ++ 128 :: List.replicate ((128 - (l + 17) % 128) % 128) 0 ++ natToBytesFixed 16 (8 * l)

def shaBlocks (padded : List Nat) : List (List Nat) :=
  (List.range (padded.length / 128)).map (fun i => (padded.drop (128 * i)).take 128)

/-- SHA-512 digest (64 bytes) of a byte string, modelling `sha512.Sum512`. -/
def sha512 (msg : List Nat) : List Nat :=
  let fin := (shaBlocks (sha512Pad msg)).foldl shaCompress sha512Init
  natToBytesFixed 8 fin.a ++ natToBytesFixed 8 fin.b ++ natToBytesFixed 8 fin.c ++
  natToBytesFixed 8 fin.d ++ natToBytesFixed 8 fin.e ++ natToBytesFixed 8 fin.f ++
  natToBytesFixed 8 fin.g ++ natToBytesFixed 8 fin.h

/-- A secret share (`secretshare.Share`): an evaluation point ID and a field value.
`PrivateKeyShare` and `DecryptionShare` are both aliases of this in the source. -/
structure Share where
  ID : Nat
  Value : Nat
deriving DecidableEq

structure SchnorrGroup where
  P : Nat
  Q : Nat
  G : Nat
deriving DecidableEq

structure PublicKey extends SchnorrGroup where
  Y : Nat
deriving DecidableEq

structure PrivateKey where
  X : Nat
deriving DecidableEq

structure Ciphertext where
  R : Nat
  C : List Nat
deriving DecidableEq

/-- Error kinds of the library, per the spec's error-handling design. -/
inductive GoError where
  | invalidArg : GoError
  | fieldConstruction : GoError
deriving DecidableEq

/-- Result of a Go computation: a value, a typed error, a runtime fault
(Go panic), or non-termination (the modelled stream of random draws ran out,
standing for a rejection-sampling loop that never exits). -/
inductive Outcome (α : Type) where
  | ok : α → Outcome α
  | err : GoError → Outcome α
  | fault : Outcome α
  | diverge : Outcome α
deriving DecidableEq

def Outcome.bind {α β : Type} : Outcome α → (α → Outcome β) → Outcome β
  | .ok a, f => f a
  | .err e, _ => .err e
  | .fault, _ => .fault
  | .diverge, _ => .diverge

def Outcome.mapM {α β : Type} (f : α → Outcome β) : List α → Outcome (List β)
  | [] => .ok []
  | a :: as => (f a).bind fun b => (Outcome.mapM f as).bind fun bs => .ok (b :: bs)

def Outcome.getD {α : Type} : Outcome α → α → α
  | .ok a, _ => a
  | _, d => d

/-- Modelled from the spec: `gf.NewGF`, the finite-field collaborator's constructor
(its source is not part of this repository).  It fails on a malformed modulus; we
take a modulus to be well-formed exactly when it is at least 2.  The field itself
is represented by its modulus. -/
def newGF (m : Nat) : Outcome Nat :=
  if 2 ≤ m then .ok m else .err .fieldConstruction

/-- Modelled from the spec: inverse in the prime field mod `q` (Fermat form),
as used by the Lagrange-basis computation of the secret-sharing collaborator. -/
def finv (a q : Nat) : Nat := powMod a (q - 2) q

/-- Modelled from the spec: `gf.BasePolynomial i xs field` — the Lagrange basis
coefficient at zero for the node at position `i` of the node list `xs`, over the
field mod `q` (`L_i = prod over j of xs_j / (xs_j - xs_i)`). -/
def basePolynomial (i : Nat) (xs : List Nat) (q : Nat) : Nat :=
  (List.range xs.length).foldl
    (fun acc j =>
      if j = i then acc
      else mulMod acc (mulMod (xs.getD j 0) (finv (subMod (xs.getD j 0) (xs.getD i 0) q) q) q) q)
    1

/-- Modelled from the spec: evaluation at `x` over the field mod `q` of the
polynomial with coefficient list `as`, constant term first (Horner). -/
def polyEval (as : List Nat) (x q : Nat) : Nat :=
  as.foldr (fun a acc => (a + x * acc) % q) 0

/-- Modelled from the spec: `secretshare.TOutOfN secret t n field` (its source is
not part of this repository).  Shares are the evaluations at 1..n of a polynomial
over the field mod `q` whose constant term is the secret, with `t - 1` further
coefficients drawn from `coeffs`; the repository's own test vectors pin the degree
at `t - 1`, so that any `t` shares determine the secret.  It fails unless
`0 < t ≤ n < q`: within that domain the `n` evaluation points are distinct field
points, which the spec's interpolation contract requires. -/
def tOutOfN (secret t n q : Nat) (coeffs : List Nat) : Outcome (List Share) :=
  if 0 < t ∧ t ≤ n ∧ n < q then
    .ok ((List.range n).map (fun i =>
      ⟨i + 1, polyEval ((secret :: coeffs.take (t - 1)).map (· % q)) (i + 1) q⟩))
  else .err .invalidArg

/-- Modelled from the spec: `secretshare.TOutOfNRecover shares field` — direct
Lagrange reconstruction of the secret at 0 over the field mod `q`. -/
def tOutOfNRecover (shares : List Share) (q : Nat) : Nat :=
  (List.range shares.length).foldl
    (fun acc i =>
      addMod acc (mulMod (shares.getD i ⟨0, 0⟩).Value
        (basePolynomial i (shares.map Share.ID) q) q) q)
    0

/-- Ceiling division for `int(math.Ceil(float64(bits) / 8))`. -/
def ceilDiv8 (bits : Int) : Int := -((-bits).ediv 8)

/-- RandomBits (util.go), with the byte stream produced by `crypto/rand.Read`
supplied as `rnd`.  A negative buffer length makes Go's `make` fault. -/
def randomBits (bits : Int) (rnd : Nat → Nat) : Outcome (List Nat) :=
  let bytes := ceilDiv8 bits
  if bytes < 0 then .fault
  else if bits ≤ 2 then .err .invalidArg
  else
    let n := bytes.toNat
    let z := 8 * n - bits.toNat
    .ok (((rnd 0 % 256) &&& (255 >>> z) ||| (192 >>> z))
          :: (List.range (n - 1)).map (fun i => rnd (i + 1) % 256))

/-- The prime-search loop of `GenerateSchnorrGroup`: repeat `P := r * q + 1` on
fresh draws of `RandomBits(rBits)` until `P.ProbablyPrime(32)` holds. -/
def findP (q rBits : Nat) : List (Nat → Nat) → Nat → Outcome Nat
  | [], P => if isPrime P then .ok P else .diverge
  | rnd :: rest, P =>
      if isPrime P then .ok P
      else (randomBits (rBits : Int) rnd).bind fun rb =>
        findP q rBits rest (bytesToNat rb * q + 1)

/-- The generator-search loop of `GenerateSchnorrGroup`: draw `h` uniformly in
`[2, P)` (via `rand.Int` on `[0, P-2)`), accept `g = h^((P-1)/q) mod P` if `g ≠ 1`. -/
def findG (P q : Nat) : List Nat → Outcome Nat
  | [] => .diverge
  | d :: rest =>
      let h := d % (P - 2) + 2
      let g := powMod h ((P - 1) / q) P
      if g ≠ 1 then .ok g else findG P q rest

/-- GenerateSchnorrGroup (schnorr.go).  The prime `q` stands for a successful
draw of `crypto/rand.Prime(rand.Reader, qBits)`; `rDraws` and `hDraws` supply the
random draws consumed by the two rejection-sampling loops. -/
def generateSchnorrGroup (pBits qBits : Nat) (q : Nat) (rDraws : List (Nat → Nat))
    (hDraws : List Nat) : Outcome SchnorrGroup :=
  if qBits ≥ pBits then .err .invalidArg
  else
    (findP q (pBits - qBits) rDraws 0).bind fun P =>
    (findG P q hDraws).bind fun G =>
    .ok ⟨P, q, G⟩

/-- KeyGen (elgamal.go).  The share count `n` is a Go `int`: the function's very
first statement allocates the share slice with `make` of length `n`, which faults
for negative `n` before anything else runs.  `xDraw` models `zq.Rand()`;
`coeffDraws` models the random polynomial coefficients drawn by the
secret-sharing collaborator. -/
def KeyGen (pBits qBits t : Nat) (n : Int) (q : Nat) (rDraws : List (Nat → Nat))
    (hDraws : List Nat) (xDraw : Nat) (coeffDraws : List Nat) :
    Outcome (PublicKey × PrivateKey × List Share) :=
  if n < 0 then .fault
  else
    (generateSchnorrGroup pBits qBits q rDraws hDraws).bind fun schnorr =>
    (newGF schnorr.Q).bind fun zq =>
    (newGF schnorr.P).bind fun zp =>
    let x := xDraw % zq
    let y := powMod schnorr.G x zp
    (tOutOfN x t n.toNat zq coeffDraws).bind fun shares =>
    .ok (⟨schnorr, y⟩, ⟨x⟩, shares)

/-- Enc (elgamal.go).  `rDraw` models `zq.Rand()`. -/
def Enc (pub : PublicKey) (message : List Nat) (rDraw : Nat) : Outcome Ciphertext :=
  if message.length ≠ 64 then .err .invalidArg
  else
    (newGF pub.Q).bind fun zq =>
    (newGF pub.P).bind fun zp =>
    let r := rDraw % zq
    let rr := powMod pub.G r zp
    let yr := powMod pub.Y r zp
    let key := sha512 (natToBytes yr)
    .ok ⟨rr, List.zipWith (fun m k => m ^^^ k) message key⟩

/-- Dec (elgamal.go). -/
def Dec (pub : PublicKey) (keyShare : Share) (ctxt : Ciphertext) : Outcome Share :=
  (newGF pub.P).bind fun zp =>
  .ok ⟨keyShare.ID, powMod ctxt.R keyShare.Value zp⟩

/-- The combination step of `Recover`: `z = prod over i of Value_i ^ L_i mod P`,
with Lagrange coefficients over mod `q`. -/
def recoverZ (p q : Nat) (dshares : List Share) : Nat :=
  (List.range dshares.length).foldl
    (fun z i =>
      mulMod z (powMod (dshares.getD i ⟨0, 0⟩).Value
        (basePolynomial i (dshares.map Share.ID) q) p) p)
    1

/-- Recover (elgamal.go).  The final loop writes `msg[i] = ctxt.C[i] XOR key[i]`
for the 64 key indices; when `ctxt.C` is shorter than the key this indexing faults. -/
def Recover (pub : PublicKey) (dshares : List Share) (ctxt : Ciphertext) : Outcome (List Nat) :=
  (newGF pub.P).bind fun zp =>
  (newGF pub.Q).bind fun zq =>
  let z := recoverZ zp zq dshares
  let key := sha512 (natToBytes z)
  if key.length ≤ ctxt.C.length then
    .ok (List.zipWith (fun c k => c ^^^ k) ctxt.C key)
  else .fault

def toyPub : PublicKey := ⟨⟨23, 11, 4⟩, 16⟩

def toyCtxt : Ciphertext :=
  ⟨3, [0xBA, 0x1E, 0x37, 0x94, 0xBC, 0x7E, 0xD5, 0xD4, 0xC9, 0x0, 0x6B, 0x9F, 0xEF, 0x89,
       0xD8, 0x83, 0x41, 0x5B, 0x5A, 0xDB, 0xD6, 0xA8, 0x40, 0x30, 0xCB, 0x1F, 0x35, 0xE6,
       0xA6, 0xC0, 0x26, 0xE6, 0x5C, 0x60, 0xFB, 0x99, 0xF5, 0x62, 0xF7, 0xEB, 0x9F, 0x77,
       0xF3, 0xDE, 0xC5, 0x0, 0x14, 0x73, 0x44, 0x1D, 0x2C, 0x55, 0x86, 0xB5, 0x4D, 0x9B,
       0x99, 0x9C, 0xF4, 0xBD, 0x79, 0xE, 0x4C, 0x56]⟩

/-- The message "Hello world" zero-padded to 64 bytes. -/
def toyMsg : List Nat :=
  [0x48, 0x65, 0x6c, 0x6c, 0x6f, 0x20, 0x77, 0x6f, 0x72, 0x6c, 0x64] ++ List.replicate 53 0

deriving instance Repr for GoError
deriving instance Repr for Outcome
deriving instance Repr for Share
deriving instance Repr for SchnorrGroup
deriving instance Repr for Ciphertext
deriving instance Repr for PublicKey
deriving instance Repr for PrivateKey

/-- Coefficient list cast into `ZMod q`. -/
def castList (q : Nat) (l : List Nat) : List (ZMod q) := l.map (fun a : Nat => (a : ZMod q))

/-- The polynomial with coefficient list `as` (constant term first). -/
noncomputable def listPoly {F : Type} [CommSemiring F] : List F → Polynomial F
  | [] => 0
  | a :: as => Polynomial.C a + Polynomial.X * listPoly as

def w1pub : PublicKey := ⟨⟨157, 13, 14⟩, 99⟩

def w1shares : List Share := [⟨1, 12⟩, ⟨2, 6⟩, ⟨3, 0⟩]

def w1ctxt : Ciphertext := (Enc w1pub toyMsg 9).getD ⟨0, []⟩

def w1ds : List Share := (Outcome.mapM (fun s => Dec w1pub s w1ctxt) w1shares).getD []

def w10ds : List Share :=
  (Outcome.mapM (fun s => Dec w1pub s w1ctxt) [⟨1, 12⟩, ⟨3, 0⟩]).getD []

theorem isPrime_iff (n : Nat) : isPrime n = true ↔ Nat.Prime n := by
  rw [Nat.prime_def_lt']
  simp only [isPrime, Bool.and_eq_true, decide_eq_true_eq, List.all_eq_true, List.mem_range,
    bne_iff_ne, ne_eq]
  constructor
  · rintro ⟨h2, hall⟩
    refine ⟨h2, fun m hm2 hmn hdvd => ?_⟩
    have := hall (m - 2) (by omega)
    rw [show m - 2 + 2 = m by omega] at this
    exact this (Nat.mod_eq_zero_of_dvd hdvd)
  · rintro ⟨h2, hall⟩
    refine ⟨h2, fun d hd hmod => ?_⟩
    exact hall (d + 2) (by omega) (by omega) (Nat.dvd_iff_mod_eq_zero.mpr hmod)

-- SHA-512 (FIPS 180-4), modelling Go's crypto/sha512.Sum512.

theorem sha512_length (msg : List Nat) : (sha512 msg).length = 64 := by
  simp [sha512, natToBytesFixed]

theorem powMod_cast (b e m : Nat) : ((powMod b e m : Nat) : ZMod m) = (b : ZMod m) ^ e := by
  simp [powMod, ZMod.natCast_mod, Nat.cast_pow]

theorem powMod_lt (b e : Nat) {m : Nat} (hm : 0 < m) : powMod b e m < m :=
  Nat.mod_lt _ hm

theorem powMod_val {m : Nat} [NeZero m] (b e : Nat) :
    powMod b e m = ((b : ZMod m) ^ e).val := by
  rw [← powMod_cast, ZMod.val_natCast, Nat.mod_eq_of_lt (powMod_lt _ _ (Nat.pos_of_ne_zero (NeZero.ne m)))]

theorem mulMod_cast (a b m : Nat) : ((mulMod a b m : Nat) : ZMod m) = (a : ZMod m) * (b : ZMod m) := by
  simp [mulMod, ZMod.natCast_mod]

theorem addMod_cast (a b m : Nat) : ((addMod a b m : Nat) : ZMod m) = (a : ZMod m) + (b : ZMod m) := by
  simp [addMod, ZMod.natCast_mod]

theorem subMod_cast (a b : Nat) {m : Nat} (hm : 0 < m) :
    ((subMod a b m : Nat) : ZMod m) = (a : ZMod m) - (b : ZMod m) := by
  have hnn : (0 : Int) ≤ ((a : Int) - (b : Int)) % (m : Int) :=
    Int.emod_nonneg _ (by exact_mod_cast hm.ne')
  have : ((subMod a b m : Nat) : Int) = ((a : Int) - (b : Int)) % (m : Int) := by
    simp [subMod, Int.toNat_of_nonneg hnn]
  have hcast : ((subMod a b m : Nat) : ZMod m) = ((((a : Int) - (b : Int)) % (m : Int) : Int) : ZMod m) := by
    rw [← Int.cast_natCast, this]
  rw [hcast, ZMod.intCast_mod]
  push_cast
  ring

theorem finv_cast {q : Nat} (hq : Nat.Prime q) {a : Nat} (ha : (a : ZMod q) ≠ 0) :
    ((finv a q : Nat) : ZMod q) = (a : ZMod q)⁻¹ := by
  haveI : Fact (Nat.Prime q) := ⟨hq⟩
  rw [finv, powMod_cast]
  refine (inv_eq_of_mul_eq_one_right ?_).symm
  have h1 : (a : ZMod q) ^ (q - 1) = 1 := ZMod.pow_card_sub_one_eq_one ha
  have h2 : 1 + (q - 2) = q - 1 := by
    have := hq.two_le
    omega
  calc (a : ZMod q) * (a : ZMod q) ^ (q - 2) = (a : ZMod q) ^ (1 + (q - 2)) := by
        rw [pow_add, pow_one]
    _ = 1 := by rw [h2, h1]

theorem foldl_range_mulMod_cast (m : Nat) (F : Nat → Nat) (k : Nat) (a : Nat) :
    (((List.range k).foldl (fun z i => mulMod z (F i) m) a : Nat) : ZMod m)
      = (a : ZMod m) * ∏ i ∈ Finset.range k, (F i : ZMod m) := by
  induction k with
  | zero => simp
  | succ n ih =>
      rw [List.range_succ, List.foldl_append, List.foldl_cons, List.foldl_nil,
        mulMod_cast, ih, Finset.prod_range_succ, mul_assoc]

theorem foldl_range_addMod_cast (m : Nat) (F : Nat → Nat) (k : Nat) (a : Nat) :
    (((List.range k).foldl (fun z i => addMod z (F i) m) a : Nat) : ZMod m)
      = (a : ZMod m) + ∑ i ∈ Finset.range k, (F i : ZMod m) := by
  induction k with
  | zero => simp
  | succ n ih =>
      rw [List.range_succ, List.foldl_append, List.foldl_cons, List.foldl_nil,
        addMod_cast, ih, Finset.sum_range_succ, add_assoc]

theorem foldl_range_skip_mulMod_cast (m itgt : Nat) (T : Nat → Nat) (k : Nat) (a : Nat) :
    (((List.range k).foldl
        (fun acc j => if j = itgt then acc else mulMod acc (T j) m) a : Nat) : ZMod m)
      = (a : ZMod m) * ∏ j ∈ Finset.range k,
          (if j = itgt then (1 : ZMod m) else (T j : ZMod m)) := by
  induction k with
  | zero => simp
  | succ n ih =>
      rw [List.range_succ, List.foldl_append, List.foldl_cons, List.foldl_nil,
        Finset.prod_range_succ]
      by_cases hn : n = itgt
      · rw [if_pos hn, if_pos hn, ih, mul_one]
      · rw [if_neg hn, if_neg hn, mulMod_cast, ih, mul_assoc]

theorem foldl_range_mulMod_lt (m : Nat) (F : Nat → Nat) (k : Nat) (a : Nat)
    (hm : 0 < m) (ha : a < m) :
    (List.range k).foldl (fun z i => mulMod z (F i) m) a < m := by
  induction k with
  | zero => simpa
  | succ n _ =>
      rw [List.range_succ, List.foldl_append, List.foldl_cons, List.foldl_nil]
      exact Nat.mod_lt _ hm

theorem foldl_range_addMod_lt (m : Nat) (F : Nat → Nat) (k : Nat) (a : Nat)
    (hm : 0 < m) (ha : a < m) :
    (List.range k).foldl (fun z i => addMod z (F i) m) a < m := by
  induction k with
  | zero => simpa
  | succ n _ =>
      rw [List.range_succ, List.foldl_append, List.foldl_cons, List.foldl_nil]
      exact Nat.mod_lt _ hm

theorem injOn_getD_cast {q : Nat} (hq : 2 ≤ q) (ids : List Nat)
    (hlt : ∀ x ∈ ids, x < q) (hnd : ids.Nodup) :
    Set.InjOn (fun j => ((ids.getD j 0 : Nat) : ZMod q)) (Finset.range ids.length) := by
  haveI : NeZero q := ⟨by omega⟩
  intro i hi j hj hij
  simp only [Finset.coe_range, Set.mem_Iio] at hi hj
  have hij' : ((ids.getD i 0 : Nat) : ZMod q) = ((ids.getD j 0 : Nat) : ZMod q) := hij
  rw [List.getD_eq_getElem ids 0 hi, List.getD_eq_getElem ids 0 hj] at hij'
  have hvi : ids[i] < q := hlt _ (List.getElem_mem hi)
  have hvj : ids[j] < q := hlt _ (List.getElem_mem hj)
  have : ids[i] = ids[j] := by
    have h1 := ZMod.val_cast_of_lt hvi
    have h2 := ZMod.val_cast_of_lt hvj
    rw [← h1, ← h2, hij']
  exact (hnd.getElem_inj_iff.mp this)

theorem eval_zero_basisDivisor {F : Type} [Field F] (x y : F) :
    (Lagrange.basisDivisor x y).eval 0 = y * (y - x)⁻¹ := by
  simp only [Lagrange.basisDivisor, Polynomial.eval_mul, Polynomial.eval_C,
    Polynomial.eval_sub, Polynomial.eval_X, zero_sub]
  rw [← neg_sub x y, inv_neg]
  ring

theorem lagrangeBasis_eval_zero {F : Type} [Field F] (k : Nat) (v : Nat → F) (i : Nat)
    (hik : i ∈ Finset.range k) :
    (Lagrange.basis (Finset.range k) v i).eval 0
      = ∏ j ∈ Finset.range k, (if j = i then (1 : F) else v j * (v j - v i)⁻¹) := by
  rw [Lagrange.basis, Polynomial.eval_prod]
  rw [← Finset.mul_prod_erase (Finset.range k)
        (fun j => if j = i then (1 : F) else v j * (v j - v i)⁻¹) hik]
  simp only [if_true]
  rw [one_mul]
  refine Finset.prod_congr rfl fun j hj => ?_
  have hji : j ≠ i := (Finset.mem_erase.mp hj).1
  rw [if_neg hji, eval_zero_basisDivisor]

theorem lagrange_eval_zero_sum {q : Nat} [Fact (Nat.Prime q)] {k : Nat} {v : Nat → ZMod q}
    (hinj : Set.InjOn v (Finset.range k)) (f : Polynomial (ZMod q)) (hdeg : f.degree < k) :
    ∑ i ∈ Finset.range k, f.eval (v i) * (Lagrange.basis (Finset.range k) v i).eval 0
      = f.eval 0 := by
  have h := Lagrange.eq_interpolate hinj (f := f) (by simpa using hdeg)
  conv_rhs => rw [h]
  rw [Lagrange.interpolate_apply, Polynomial.eval_finset_sum]
  refine Finset.sum_congr rfl fun i hi => ?_
  rw [Polynomial.eval_mul, Polynomial.eval_C]

theorem polyEval_cast (q : Nat) (as : List Nat) (x : Nat) :
    ((polyEval as x q : Nat) : ZMod q)
      = (listPoly (castList q as)).eval (x : ZMod q) := by
  induction as with
  | nil => simp [polyEval, listPoly, castList]
  | cons a tl ih =>
      show (((a + x * polyEval tl x q) % q : Nat) : ZMod q) = _
      rw [ZMod.natCast_mod, Nat.cast_add, Nat.cast_mul, ih]
      show _ = (Polynomial.C (a : ZMod q) + Polynomial.X * listPoly (castList q tl)).eval (x : ZMod q)
      rw [Polynomial.eval_add, Polynomial.eval_C, Polynomial.eval_mul, Polynomial.eval_X]

theorem listPoly_degree_lt {F : Type} [Field F] (as : List F) :
    (listPoly as).degree < (as.length : WithBot Nat) := by
  induction as with
  | nil =>
      show (0 : Polynomial F).degree < _
      rw [Polynomial.degree_zero]
      exact WithBot.bot_lt_coe _
  | cons a tl ih =>
      show (Polynomial.C a + Polynomial.X * listPoly tl).degree < _
      refine lt_of_le_of_lt (Polynomial.degree_add_le _ _) (max_lt ?_ ?_)
      · refine lt_of_le_of_lt Polynomial.degree_C_le ?_
        exact_mod_cast Nat.succ_pos tl.length
      · rcases eq_or_ne (listPoly tl) 0 with h0 | h0
        · rw [h0, mul_zero, Polynomial.degree_zero]
          exact WithBot.bot_lt_coe _
        · rw [Polynomial.degree_mul, Polynomial.degree_X]
          have : ((tl.length + 1 : Nat) : WithBot Nat) = 1 + (tl.length : WithBot Nat) := by
            push_cast
            ring
          rw [List.length_cons, this]
          exact WithBot.add_lt_add_left (by simp) ih

theorem listPoly_eval_zero {F : Type} [CommSemiring F] (as : List F) :
    (listPoly as).eval 0 = as.headD 0 := by
  cases as with
  | nil => simp [listPoly]
  | cons a tl =>
      show (Polynomial.C a + Polynomial.X * listPoly tl).eval 0 = a
      rw [Polynomial.eval_add, Polynomial.eval_C, Polynomial.eval_mul, Polynomial.eval_X,
        zero_mul, add_zero]

theorem basePolynomial_cast (q : Nat) (hq : Nat.Prime q) (ids : List Nat) (i : Nat)
    (hlt : ∀ x ∈ ids, x < q) (hnd : ids.Nodup) (hi : i < ids.length) :
    ((basePolynomial i ids q : Nat) : ZMod q)
      = ∏ j ∈ Finset.range ids.length,
          (if j = i then (1 : ZMod q)
           else ((ids.getD j 0 : Nat) : ZMod q)
                  * (((ids.getD j 0 : Nat) : ZMod q) - ((ids.getD i 0 : Nat) : ZMod q))⁻¹) := by
  haveI : Fact (Nat.Prime q) := ⟨hq⟩
  rw [basePolynomial, foldl_range_skip_mulMod_cast, Nat.cast_one, one_mul]
  refine Finset.prod_congr rfl fun j hj => ?_
  by_cases hji : j = i
  · rw [if_pos hji, if_pos hji]
  · rw [if_neg hji, if_neg hji, mulMod_cast]
    congr 1
    have hjlen : j < ids.length := Finset.mem_range.mp hj
    have hsub : ((subMod (ids.getD j 0) (ids.getD i 0) q : Nat) : ZMod q)
        = ((ids.getD j 0 : Nat) : ZMod q) - ((ids.getD i 0 : Nat) : ZMod q) :=
      subMod_cast _ _ hq.pos
    have hne : ((ids.getD j 0 : Nat) : ZMod q) - ((ids.getD i 0 : Nat) : ZMod q) ≠ 0 := by
      rw [sub_ne_zero]
      intro heq
      exact hji (injOn_getD_cast hq.two_le ids hlt hnd
        (by simpa [Finset.coe_range, Set.mem_Iio] using hjlen)
        (by simpa [Finset.coe_range, Set.mem_Iio] using hi) heq)
    rw [finv_cast hq (hsub ▸ hne), hsub]

theorem lagrange_sum_nat (q : Nat) (hq : Nat.Prime q) (as ids : List Nat)
    (hlen : as.length ≤ ids.length) (hlt : ∀ x ∈ ids, x < q) (hnd : ids.Nodup) :
    ((∑ i ∈ Finset.range ids.length,
        polyEval as (ids.getD i 0) q * basePolynomial i ids q : Nat) : ZMod q)
      = ((as.getD 0 0 : Nat) : ZMod q) := by
  haveI : Fact (Nat.Prime q) := ⟨hq⟩
  rw [Nat.cast_sum]
  have hstep : ∀ i ∈ Finset.range ids.length,
      ((polyEval as (ids.getD i 0) q * basePolynomial i ids q : Nat) : ZMod q)
        = (listPoly (castList q as)).eval ((ids.getD i 0 : Nat) : ZMod q)
            * (Lagrange.basis (Finset.range ids.length)
                (fun j => ((ids.getD j 0 : Nat) : ZMod q)) i).eval 0 := by
    intro i hi
    rw [Nat.cast_mul, polyEval_cast, basePolynomial_cast q hq ids i hlt hnd (Finset.mem_range.mp hi),
      lagrangeBasis_eval_zero _ _ _ hi]
  rw [Finset.sum_congr rfl hstep]
  have hdeg : (listPoly (castList q as)).degree < (ids.length : WithBot Nat) := by
    refine lt_of_lt_of_le (listPoly_degree_lt _) ?_
    simp only [castList, List.length_map]
    exact_mod_cast hlen
  rw [lagrange_eval_zero_sum (injOn_getD_cast hq.two_le ids hlt hnd) _ hdeg]
  rw [listPoly_eval_zero]
  cases as with
  | nil => simp [castList]
  | cons a tl => simp [castList]

theorem pow_eq_pow_of_mod_eq {P : Nat} (R : ZMod P) {q : Nat} (hq : 0 < q) (hRq : R ^ q = 1)
    {a b : Nat} (hab : a % q = b % q) : R ^ a = R ^ b := by
  have key : ∀ c : Nat, R ^ c = R ^ (c % q) := by
    intro c
    conv_lhs => rw [← Nat.div_add_mod c q]
    rw [pow_add, pow_mul, hRq, one_pow, one_mul]
  rw [key a, key b, hab]

/-- The combination step of `Recover`, applied to decryption shares
`R ^ f(id) mod P` for the share polynomial `f` with coefficients `as`, yields
`R ^ f(0)` in the group: the heart of the threshold-decryption correctness. -/
theorem recoverZ_spec (P q : Nat) (hq : Nat.Prime q)
    (R : Nat) (hRq : (R : ZMod P) ^ q = 1)
    (as ids : List Nat) (hlen : as.length ≤ ids.length)
    (hlt : ∀ x ∈ ids, x < q) (hnd : ids.Nodup) :
    ((recoverZ P q (ids.map (fun id => ⟨id, powMod R (polyEval as id q) P⟩)) : Nat) : ZMod P)
      = (R : ZMod P) ^ (as.getD 0 0) := by
  set ds := ids.map (fun id => (⟨id, powMod R (polyEval as id q) P⟩ : Share)) with hds
  have hmapid : ds.map Share.ID = ids := by
    rw [hds, List.map_map]
    exact List.map_id'' (fun _ => rfl) ids
  have hlength : ds.length = ids.length := by rw [hds, List.length_map]
  simp only [recoverZ, hlength, hmapid]
  rw [foldl_range_mulMod_cast, Nat.cast_one, one_mul]
  have hterm : ∀ i ∈ Finset.range ids.length,
      ((powMod (ds.getD i ⟨0, 0⟩).Value (basePolynomial i ids q) P : Nat) : ZMod P)
        = (R : ZMod P) ^ (polyEval as (ids.getD i 0) q * basePolynomial i ids q) := by
    intro i hi
    have hi' : i < ids.length := Finset.mem_range.mp hi
    have hval : (ds.getD i ⟨0, 0⟩).Value = powMod R (polyEval as (ids.getD i 0) q) P := by
      rw [hds, List.getD_eq_getElem _ _ (by rw [List.length_map]; exact hi'), List.getElem_map,
        List.getD_eq_getElem _ _ hi']
    rw [hval, powMod_cast, powMod_cast, ← pow_mul]
  rw [Finset.prod_congr rfl hterm, Finset.prod_pow_eq_pow_sum]
  refine pow_eq_pow_of_mod_eq _ hq.pos hRq ?_
  have hsum := lagrange_sum_nat q hq as ids hlen hlt hnd
  rwa [ZMod.natCast_eq_natCast_iff'] at hsum

/-- Direct secret reconstruction from `t`-of-`n` shares of the polynomial with
coefficient list `as`, over the field mod `q`. -/
theorem tOutOfNRecover_spec (q : Nat) (hq : Nat.Prime q)
    (as ids : List Nat) (hlen : as.length ≤ ids.length)
    (hlt : ∀ x ∈ ids, x < q) (hnd : ids.Nodup) :
    tOutOfNRecover (ids.map (fun id => ⟨id, polyEval as id q⟩)) q = as.getD 0 0 % q := by
  haveI : NeZero q := ⟨hq.pos.ne'⟩
  set ds := ids.map (fun id => (⟨id, polyEval as id q⟩ : Share)) with hds
  have hmapid : ds.map Share.ID = ids := by
    rw [hds, List.map_map]
    exact List.map_id'' (fun _ => rfl) ids
  have hlength : ds.length = ids.length := by rw [hds, List.length_map]
  have hlt1 : tOutOfNRecover ds q < q := by
    simp only [tOutOfNRecover]
    exact foldl_range_addMod_lt _ _ _ _ hq.pos hq.pos
  have hlt2 : as.getD 0 0 % q < q := Nat.mod_lt _ hq.pos
  have hcast : ((tOutOfNRecover ds q : Nat) : ZMod q) = ((as.getD 0 0 % q : Nat) : ZMod q) := by
    simp only [tOutOfNRecover, hlength, hmapid]
    rw [foldl_range_addMod_cast, Nat.cast_zero, zero_add, ZMod.natCast_mod]
    have hterm : ∀ i ∈ Finset.range ids.length,
        ((mulMod (ds.getD i ⟨0, 0⟩).Value (basePolynomial i ids q) q : Nat) : ZMod q)
          = ((polyEval as (ids.getD i 0) q * basePolynomial i ids q : Nat) : ZMod q) := by
      intro i hi
      have hi' : i < ids.length := Finset.mem_range.mp hi
      have hval : (ds.getD i ⟨0, 0⟩).Value = polyEval as (ids.getD i 0) q := by
        rw [hds, List.getD_eq_getElem _ _ (by rw [List.length_map]; exact hi'), List.getElem_map,
          List.getD_eq_getElem _ _ hi']
      rw [hval, mulMod_cast, Nat.cast_mul]
    rw [Finset.sum_congr rfl hterm, ← Nat.cast_sum]
    exact lagrange_sum_nat q hq as ids hlen hlt hnd
  have hval := congrArg ZMod.val hcast
  rwa [ZMod.val_cast_of_lt hlt1, ZMod.val_cast_of_lt hlt2] at hval

theorem Outcome.bind_ok {α β : Type} {o : Outcome α} {f : α → Outcome β} {b : β}
    (h : o.bind f = .ok b) : ∃ a, o = .ok a ∧ f a = .ok b := by
  cases o with
  | ok a => exact ⟨a, rfl, h⟩
  | err e => cases h
  | fault => cases h
  | diverge => cases h

theorem newGF_ok {m : Nat} (hm : 2 ≤ m) : newGF m = .ok m := by
  simp [newGF, hm]

theorem newGF_ok_elim {m z : Nat} (h : newGF m = .ok z) : z = m ∧ 2 ≤ m := by
  by_cases hm : 2 ≤ m
  · rw [newGF, if_pos hm] at h
    cases h
    exact ⟨rfl, hm⟩
  · rw [newGF, if_neg hm] at h
    cases h

theorem findP_ok {q rBits : Nat} {rDraws : List (Nat → Nat)} {P0 P : Nat}
    (h : findP q rBits rDraws P0 = .ok P) :
    isPrime P = true ∧ (P = P0 ∨ ∃ rd : Nat, P = rd * q + 1) := by
  induction rDraws generalizing P0 with
  | nil =>
      rw [findP] at h
      split at h
      · cases h
        exact ⟨by assumption, Or.inl rfl⟩
      · cases h
  | cons rnd rest ih =>
      rw [findP] at h
      split at h
      · cases h
        exact ⟨by assumption, Or.inl rfl⟩
      · obtain ⟨rb, hrb, hrec⟩ := Outcome.bind_ok h
        obtain ⟨h1, h2⟩ := ih hrec
        refine ⟨h1, ?_⟩
        rcases h2 with he | he
        · exact Or.inr ⟨bytesToNat rb, he⟩
        · exact Or.inr he

theorem findG_ok {P q : Nat} {hDraws : List Nat} {G : Nat}
    (h : findG P q hDraws = .ok G) :
    G ≠ 1 ∧ ∃ d : Nat, G = powMod (d % (P - 2) + 2) ((P - 1) / q) P := by
  induction hDraws with
  | nil => cases h
  | cons d rest ih =>
      rw [findG] at h
      split at h
      · cases h
        exact ⟨by assumption, ⟨d, rfl⟩⟩
      · exact ih h

theorem generateSchnorrGroup_ok {pBits qBits q : Nat} {rDraws : List (Nat → Nat)}
    {hDraws : List Nat} {sg : SchnorrGroup}
    (h : generateSchnorrGroup pBits qBits q rDraws hDraws = .ok sg) :
    sg.Q = q ∧ isPrime sg.P = true ∧ (∃ rd : Nat, 0 < rd ∧ sg.P = rd * q + 1)
      ∧ (∃ d : Nat, sg.G = powMod (d % (sg.P - 2) + 2) ((sg.P - 1) / q) sg.P)
      ∧ sg.G ≠ 1 ∧ qBits < pBits := by
  rw [generateSchnorrGroup] at h
  split at h
  · cases h
  case isFalse hge =>
    obtain ⟨P, hP, h⟩ := Outcome.bind_ok h
    obtain ⟨G, hG, h⟩ := Outcome.bind_ok h
    cases h
    obtain ⟨hPrime, hPor⟩ := findP_ok hP
    obtain ⟨hGne, hGform⟩ := findG_ok hG
    have hPform : ∃ rd : Nat, 0 < rd ∧ P = rd * q + 1 := by
      rcases hPor with he | ⟨rd, he⟩
      · rw [he] at hPrime
        simp [isPrime] at hPrime
      · rcases Nat.eq_zero_or_pos rd with hrd | hrd
        · rw [hrd, zero_mul] at he
          rw [he] at hPrime
          simp [isPrime] at hPrime
        · exact ⟨rd, hrd, he⟩
    exact ⟨rfl, hPrime, hPform, hGform, hGne, by omega⟩

theorem keyGen_ok {pBits qBits t : Nat} {n : Int} {q xDraw : Nat} {rDraws : List (Nat → Nat)}
    {hDraws : List Nat} {coeffDraws : List Nat}
    {pub : PublicKey} {priv : PrivateKey} {shares : List Share}
    (h : KeyGen pBits qBits t n q rDraws hDraws xDraw coeffDraws = .ok (pub, priv, shares)) :
    generateSchnorrGroup pBits qBits q rDraws hDraws = .ok pub.toSchnorrGroup
      ∧ 2 ≤ pub.Q ∧ 2 ≤ pub.P
      ∧ priv.X = xDraw % pub.Q
      ∧ pub.Y = powMod pub.G priv.X pub.P
      ∧ 0 < t ∧ t ≤ n.toNat ∧ n.toNat < pub.Q
      ∧ shares = (List.range n.toNat).map (fun i =>
          ⟨i + 1, polyEval ((priv.X :: coeffDraws.take (t - 1)).map (· % pub.Q)) (i + 1) pub.Q⟩) := by
  rw [KeyGen] at h
  split at h
  · cases h
  obtain ⟨sg, hsg, h⟩ := Outcome.bind_ok h
  obtain ⟨zq, hzq, h⟩ := Outcome.bind_ok h
  obtain ⟨zp, hzp, h⟩ := Outcome.bind_ok h
  obtain ⟨shs, hshs, h⟩ := Outcome.bind_ok h
  cases h
  obtain ⟨hzq1, hzq2⟩ := newGF_ok_elim hzq
  obtain ⟨hzp1, hzp2⟩ := newGF_ok_elim hzp
  subst hzq1
  subst hzp1
  rw [tOutOfN] at hshs
  split at hshs
  case isFalse => cases hshs
  case isTrue hcond =>
    cases hshs
    exact ⟨hsg, hzq2, hzp2, rfl, rfl, hcond.1, hcond.2.1, hcond.2.2, rfl⟩

theorem enc_ok {pub : PublicKey} {msg : List Nat} {rDraw : Nat} {ctxt : Ciphertext}
    (h : Enc pub msg rDraw = .ok ctxt) :
    msg.length = 64
      ∧ ctxt.R = powMod pub.G (rDraw % pub.Q) pub.P
      ∧ ctxt.C = List.zipWith (fun m k => m ^^^ k) msg
          (sha512 (natToBytes (powMod pub.Y (rDraw % pub.Q) pub.P))) := by
  rw [Enc] at h
  split at h
  · cases h
  case isFalse hlen =>
    obtain ⟨zq, hzq, h⟩ := Outcome.bind_ok h
    obtain ⟨zp, hzp, h⟩ := Outcome.bind_ok h
    cases h
    obtain ⟨hzq1, _⟩ := newGF_ok_elim hzq
    obtain ⟨hzp1, _⟩ := newGF_ok_elim hzp
    subst hzq1
    subst hzp1
    exact ⟨by omega, rfl, rfl⟩

theorem dec_eq {pub : PublicKey} (hp : 2 ≤ pub.P) (ks : Share) (ctxt : Ciphertext) :
    Dec pub ks ctxt = .ok ⟨ks.ID, powMod ctxt.R ks.Value pub.P⟩ := by
  rw [Dec, newGF_ok hp]
  rfl

theorem recover_eq {pub : PublicKey} (hp : 2 ≤ pub.P) (hq : 2 ≤ pub.Q)
    (ds : List Share) (ctxt : Ciphertext) (hc : 64 ≤ ctxt.C.length) :
    Recover pub ds ctxt
      = .ok (List.zipWith (fun c k => c ^^^ k) ctxt.C
          (sha512 (natToBytes (recoverZ pub.P pub.Q ds)))) := by
  rw [Recover, newGF_ok hp]
  show Outcome.bind (newGF pub.Q) _ = _
  rw [newGF_ok hq]
  show (if (sha512 (natToBytes (recoverZ pub.P pub.Q ds))).length ≤ ctxt.C.length then _ else _) = _
  rw [if_pos (by rw [sha512_length]; exact hc)]

theorem Outcome.mapM_ok {α β : Type} {f : α → Outcome β} {g : α → β} {l : List α} {out : List β}
    (hf : ∀ a ∈ l, f a = .ok (g a)) (h : Outcome.mapM f l = .ok out) : out = l.map g := by
  induction l generalizing out with
  | nil =>
      rw [Outcome.mapM] at h
      cases h
      rfl
  | cons a tl ih =>
      rw [Outcome.mapM] at h
      obtain ⟨b, hb, h⟩ := Outcome.bind_ok h
      obtain ⟨bs, hbs, h⟩ := Outcome.bind_ok h
      cases h
      rw [hf a (by simp)] at hb
      cases hb
      rw [List.map_cons, ih (fun x hx => hf x (by simp [hx])) hbs]

theorem zipWith_xor_cancel (msg key : List Nat) (h : msg.length ≤ key.length) :
    List.zipWith (fun c k => c ^^^ k) (List.zipWith (fun m k => m ^^^ k) msg key) key = msg := by
  induction msg generalizing key with
  | nil => simp
  | cons m ms ih =>
      cases key with
      | nil => simp at h
      | cons k ks =>
          simp only [List.zipWith_cons_cons]
          rw [ih ks (by simpa using h)]
          congr 1
          rw [Nat.xor_assoc, Nat.xor_self, Nat.xor_zero]

/-- Common core of the threshold-decryption claims: a successful `KeyGen` followed
by a successful `Enc`, with any selection of at least `t` key shares with distinct
IDs, lets `Recover` reproduce the message, and the same selection interpolates the
private key directly. -/
theorem roundtrip_core
    {pBits qBits t : Nat} {n : Int} {q xDraw : Nat}
    {rDraws : List (Nat → Nat)} {hDraws coeffDraws : List Nat}
    {pub : PublicKey} {priv : PrivateKey} {shares : List Share}
    (hq : Nat.Prime q)
    (hkg : KeyGen pBits qBits t n q rDraws hDraws xDraw coeffDraws = .ok (pub, priv, shares))
    (sel : List Share) (hsel : ∀ s ∈ sel, s ∈ shares)
    (hids : (sel.map Share.ID).Nodup) (hlen : t ≤ sel.length) :
    tOutOfNRecover sel q = priv.X
      ∧ ∀ (msg : List Nat) (rDraw : Nat) (ctxt : Ciphertext) (dshares : List Share),
          Enc pub msg rDraw = .ok ctxt →
          Outcome.mapM (fun s => Dec pub s ctxt) sel = .ok dshares →
          Recover pub dshares ctxt = .ok msg := by
  obtain ⟨hsg, hQ2, hP2, hX, hY, ht, htn, hnq, hshares⟩ := keyGen_ok hkg
  obtain ⟨hQq, hPp, ⟨rd, hrd, hPform⟩, ⟨d, hGform⟩, hGne, hbits⟩ := generateSchnorrGroup_ok hsg
  subst hQq
  have hq2 : 2 ≤ pub.Q := hq.two_le
  have hPprime : Nat.Prime pub.P := (isPrime_iff _).mp hPp
  haveI : Fact (Nat.Prime pub.P) := ⟨hPprime⟩
  have hP3 : 3 ≤ pub.P := by
    have h1 : 1 * 2 ≤ rd * pub.Q := Nat.mul_le_mul hrd hq2
    omega
  have hP1eq : pub.P - 1 = rd * pub.Q := by omega
  have hePQ : (pub.P - 1) / pub.Q * pub.Q = pub.P - 1 := by
    rw [hP1eq, Nat.mul_div_cancel rd (by omega)]
  have hGq1 : ((pub.G : Nat) : ZMod pub.P) ^ pub.Q = 1 := by
    rw [hGform, powMod_cast, ← pow_mul, hePQ]
    refine ZMod.pow_card_sub_one_eq_one ?_
    intro h0
    rw [ZMod.natCast_zmod_eq_zero_iff_dvd] at h0
    have hmod : d % (pub.P - 2) < pub.P - 2 := Nat.mod_lt _ (by omega)
    have := Nat.le_of_dvd (by omega) h0
    omega
  set as0 : List Nat := (priv.X :: coeffDraws.take (t - 1)).map (· % pub.Q) with has0
  have has0len : as0.length ≤ t := by
    rw [has0, List.length_map, List.length_cons, List.length_take]
    omega
  set ids : List Nat := sel.map Share.ID with hids_def
  have hmem : ∀ s ∈ sel, 1 ≤ s.ID ∧ s.ID ≤ n.toNat ∧ s = ⟨s.ID, polyEval as0 s.ID pub.Q⟩ := by
    intro s hs
    have hmem0 := hsel s hs
    rw [hshares] at hmem0
    obtain ⟨i, hi, rfl⟩ := List.mem_map.mp hmem0
    have hin : i < n.toNat := List.mem_range.mp hi
    refine ⟨?_, ?_, rfl⟩
    · show 1 ≤ i + 1
      omega
    · show i + 1 ≤ n.toNat
      omega
  have hids_lt : ∀ x ∈ ids, x < pub.Q := by
    intro x hx
    rw [hids_def] at hx
    obtain ⟨s, hs, rfl⟩ := List.mem_map.mp hx
    have := (hmem s hs).2.1
    omega
  have hsel_eq : sel = ids.map (fun id => (⟨id, polyEval as0 id pub.Q⟩ : Share)) := by
    rw [hids_def, List.map_map]
    have hcong : ∀ s ∈ sel,
        ((fun id => (⟨id, polyEval as0 id pub.Q⟩ : Share)) ∘ Share.ID) s = id s := by
      intro s hs
      exact ((hmem s hs).2.2).symm
    rw [List.map_congr_left hcong, List.map_id]
  have hids_len : as0.length ≤ ids.length := by
    have h1 : ids.length = sel.length := by rw [hids_def, List.length_map]
    omega
  have hget : as0.getD 0 0 = priv.X := by
    have h1 : as0.getD 0 0 = priv.X % pub.Q := by rw [has0]; rfl
    rw [h1, hX, Nat.mod_mod_of_dvd _ dvd_rfl]
  constructor
  · conv_lhs => rw [hsel_eq]
    rw [tOutOfNRecover_spec _ hq as0 ids hids_len hids_lt hids, hget, hX,
      Nat.mod_mod_of_dvd _ dvd_rfl]
  · intro msg rDraw ctxt dshares henc hdec
    obtain ⟨hm64, hR, hC⟩ := enc_ok henc
    have hkey_len : (sha512 (natToBytes (powMod pub.Y (rDraw % pub.Q) pub.P))).length = 64 :=
      sha512_length _
    have hClen : ctxt.C.length = 64 := by
      rw [hC, List.length_zipWith, hm64, hkey_len]
      exact min_self 64
    have hds : dshares = sel.map (fun s => (⟨s.ID, powMod ctxt.R s.Value pub.P⟩ : Share)) :=
      Outcome.mapM_ok (fun s _ => dec_eq (by omega) s ctxt) hdec
    rw [recover_eq (by omega) hq2 dshares ctxt (by omega)]
    have hds2 : dshares = ids.map (fun id =>
        (⟨id, powMod ctxt.R (polyEval as0 id pub.Q) pub.P⟩ : Share)) := by
      rw [hds]
      conv_lhs => rw [hsel_eq]
      rw [List.map_map]
      rfl
    have hRq1 : ((ctxt.R : Nat) : ZMod pub.P) ^ pub.Q = 1 := by
      rw [hR, powMod_cast, ← pow_mul, mul_comm, pow_mul, hGq1, one_pow]
    have hcast := recoverZ_spec pub.P pub.Q hq ctxt.R hRq1 as0 ids hids_len hids_lt hids
    rw [← hds2] at hcast
    have hyr : ((powMod pub.Y (rDraw % pub.Q) pub.P : Nat) : ZMod pub.P)
        = ((ctxt.R : Nat) : ZMod pub.P) ^ (as0.getD 0 0) := by
      rw [hget, hY, powMod_cast, powMod_cast, hR, powMod_cast, ← pow_mul, ← pow_mul, mul_comm]
    have hz : recoverZ pub.P pub.Q dshares = powMod pub.Y (rDraw % pub.Q) pub.P := by
      have h1 : recoverZ pub.P pub.Q dshares < pub.P := by
        simp only [recoverZ]
        exact foldl_range_mulMod_lt _ _ _ _ (by omega) (by omega)
      have h2 : powMod pub.Y (rDraw % pub.Q) pub.P < pub.P := powMod_lt _ _ (by omega)
      have heq := hcast.trans hyr.symm
      have hval := congrArg ZMod.val heq
      rwa [ZMod.val_cast_of_lt h1, ZMod.val_cast_of_lt h2] at hval
    rw [hz, hC]
    congr 1
    exact zipWith_xor_cancel msg _ (by rw [hm64, hkey_len])

theorem Outcome.bind_ne_fault {α β : Type} {o : Outcome α} {f : α → Outcome β}
    (ho : o ≠ .fault) (hf : ∀ a, f a ≠ .fault) : o.bind f ≠ .fault := by
  cases o with
  | ok a => exact hf a
  | err e => simp [Outcome.bind]
  | fault => exact absurd rfl ho
  | diverge => simp [Outcome.bind]

theorem Outcome.bind_ne_err {α β : Type} {o : Outcome α} {f : α → Outcome β} {e : GoError}
    (ho : ∀ e', o ≠ .err e') (hf : ∀ a, f a ≠ .err e) : o.bind f ≠ .err e := by
  cases o with
  | ok a => exact hf a
  | err e' => exact absurd rfl (ho e')
  | fault => simp [Outcome.bind]
  | diverge => simp [Outcome.bind]

theorem newGF_bind_ne_fault {β : Type} {m : Nat} {f : Nat → Outcome β}
    (hf : ∀ a, f a ≠ .fault) : (newGF m).bind f ≠ .fault := by
  rw [newGF]
  split
  · exact hf m
  · simp [Outcome.bind]

theorem ceilDiv8_nonneg {bits : Int} (h : -7 ≤ bits) : 0 ≤ ceilDiv8 bits := by
  rw [ceilDiv8]
  have h1 : (-bits).ediv 8 ≤ (7 : Int).ediv 8 := Int.ediv_le_ediv (by decide) (by omega)
  have h2 : (7 : Int).ediv 8 = 0 := by decide
  omega

theorem randomBits_ne_fault (bits : Int) (rnd : Nat → Nat) (h : -7 ≤ bits) :
    randomBits bits rnd ≠ .fault := by
  rw [randomBits]
  rw [if_neg (by have := ceilDiv8_nonneg h; omega)]
  split
  · simp
  · simp

theorem randomBits_ok (bits : Int) (rnd : Nat → Nat) (h : 2 < bits) :
    ∃ bs, randomBits bits rnd = .ok bs := by
  rw [randomBits]
  rw [if_neg (by have := ceilDiv8_nonneg (by omega : -7 ≤ bits); omega)]
  rw [if_neg (by omega)]
  exact ⟨_, rfl⟩

theorem findP_ne_fault (q rBits : Nat) (rDraws : List (Nat → Nat)) (P0 : Nat) :
    findP q rBits rDraws P0 ≠ .fault := by
  induction rDraws generalizing P0 with
  | nil =>
      rw [findP]
      split <;> simp
  | cons rnd rest ih =>
      rw [findP]
      split
      · simp
      · exact Outcome.bind_ne_fault (randomBits_ne_fault _ rnd (by omega)) fun rb => ih _

theorem findG_ne_fault (P q : Nat) (hDraws : List Nat) : findG P q hDraws ≠ .fault := by
  induction hDraws with
  | nil => simp [findG]
  | cons d rest ih =>
      rw [findG]
      split
      · simp
      · exact ih

theorem findP_ne_err (q rBits : Nat) (h : 2 < rBits) (rDraws : List (Nat → Nat)) (P0 : Nat)
    (e : GoError) : findP q rBits rDraws P0 ≠ .err e := by
  induction rDraws generalizing P0 with
  | nil =>
      rw [findP]
      split <;> simp
  | cons rnd rest ih =>
      rw [findP]
      split
      · simp
      · obtain ⟨bs, hbs⟩ := randomBits_ok (rBits : Int) rnd (by exact_mod_cast h)
        rw [hbs]
        exact ih _

theorem findG_ne_err (P q : Nat) (hDraws : List Nat) (e : GoError) :
    findG P q hDraws ≠ .err e := by
  induction hDraws with
  | nil => simp [findG]
  | cons d rest ih =>
      rw [findG]
      split
      · simp
      · exact ih

theorem generateSchnorrGroup_ne_fault (pBits qBits q : Nat) (rD : List (Nat → Nat))
    (hD : List Nat) : generateSchnorrGroup pBits qBits q rD hD ≠ .fault := by
  rw [generateSchnorrGroup]
  split
  · simp
  · refine Outcome.bind_ne_fault (findP_ne_fault _ _ _ _) fun P => ?_
    refine Outcome.bind_ne_fault (findG_ne_fault _ _ _) fun G => ?_
    simp

theorem tOutOfN_ne_fault (secret t n q : Nat) (coeffs : List Nat) :
    tOutOfN secret t n q coeffs ≠ .fault := by
  rw [tOutOfN]
  split <;> simp

theorem randomBits_fault (bits : Int) (rnd : Nat → Nat) (h : bits ≤ -8) :
    randomBits bits rnd = .fault := by
  have hneg : ceilDiv8 bits < 0 := by
    rw [ceilDiv8]
    have h1 : (8 : Int).ediv 8 ≤ (-bits).ediv 8 := Int.ediv_le_ediv (by decide) (by omega)
    have h2 : (8 : Int).ediv 8 = 1 := by decide
    omega
  rw [randomBits, if_pos hneg]

theorem keyGen_ne_fault (pBits qBits t : Nat) (n : Int) (q xDraw : Nat)
    (rD : List (Nat → Nat)) (hD coeffD : List Nat) (hn : 0 ≤ n) :
    KeyGen pBits qBits t n q rD hD xDraw coeffD ≠ .fault := by
  rw [KeyGen, if_neg (by omega)]
  refine Outcome.bind_ne_fault (generateSchnorrGroup_ne_fault _ _ _ _ _) fun sg => ?_
  refine newGF_bind_ne_fault fun zq => ?_
  refine newGF_bind_ne_fault fun zp => ?_
  refine Outcome.bind_ne_fault (tOutOfN_ne_fault _ _ _ _ _) fun shs => ?_
  simp

theorem keyGen_fault_of_neg (pBits qBits t : Nat) (n : Int) (q xDraw : Nat)
    (rD : List (Nat → Nat)) (hD coeffD : List Nat) (hn : n < 0) :
    KeyGen pBits qBits t n q rD hD xDraw coeffD = .fault := by
  rw [KeyGen, if_pos hn]

/-- C1: for every key material produced by a successful `KeyGen`, every 64-byte
message, every ciphertext produced by a successful `Enc`, and every selection of
`t + 1` of the key shares with distinct IDs, `Recover` applied to the decryption
shares obtained by `Dec` on each selected key share returns exactly the original
message, independent of which subset is chosen. -/
theorem c1_roundtrip
    {pBits qBits t : Nat} {n : Int} {q xDraw : Nat}
    {rDraws : List (Nat → Nat)} {hDraws coeffDraws : List Nat}
    {pub : PublicKey} {priv : PrivateKey} {shares : List Share}
    (hq : Nat.Prime q)
    (hkg : KeyGen pBits qBits t n q rDraws hDraws xDraw coeffDraws = .ok (pub, priv, shares))
    (msg : List Nat) (rDraw : Nat) (ctxt : Ciphertext)
    (henc : Enc pub msg rDraw = .ok ctxt)
    (sel : List Share) (hsel : ∀ s ∈ sel, s ∈ shares)
    (hcount : sel.length = t + 1) (hids : (sel.map Share.ID).Nodup)
    (dshares : List Share)
    (hdec : Outcome.mapM (fun s => Dec pub s ctxt) sel = .ok dshares) :
    Recover pub dshares ctxt = .ok msg :=
  (roundtrip_core hq hkg sel hsel hids (by omega)).2 msg rDraw ctxt dshares henc hdec

theorem c1_roundtrip_witness :
    KeyGen 8 4 2 3 13 [fun _ => 0] [0] 5 [7] = .ok (w1pub, ⟨5⟩, w1shares)
      ∧ Enc w1pub toyMsg 9 = .ok w1ctxt
      ∧ Outcome.mapM (fun s => Dec w1pub s w1ctxt) w1shares = .ok w1ds
      ∧ Recover w1pub w1ds w1ctxt = .ok toyMsg := by
  have hkg : KeyGen 8 4 2 3 13 [fun _ => 0] [0] 5 [7] = .ok (w1pub, ⟨5⟩, w1shares) := by decide
  have henc : Enc w1pub toyMsg 9 = .ok w1ctxt := rfl
  have hdec : Outcome.mapM (fun s => Dec w1pub s w1ctxt) w1shares = .ok w1ds := rfl
  exact ⟨hkg, henc, hdec,
    c1_roundtrip ((isPrime_iff 13).mp (by decide)) hkg toyMsg 9 w1ctxt henc
      w1shares (fun s hs => hs) (by decide) (by decide) w1ds hdec⟩

/-- C10: for key material from a successful `KeyGen` with `0 < t ≤ n`, any `t`
(not `t + 1`) of the key shares with distinct IDs already interpolate exactly to
the private key `X` over the field mod `Q`, and the decryption shares obtained via
`Dec` from those `t` key shares suffice for `Recover` to return the message: the
effective reconstruction threshold is the parameter `t` itself. -/
theorem c10_threshold_t
    {pBits qBits t : Nat} {n : Int} {q xDraw : Nat}
    {rDraws : List (Nat → Nat)} {hDraws coeffDraws : List Nat}
    {pub : PublicKey} {priv : PrivateKey} {shares : List Share}
    (hq : Nat.Prime q)
    (hkg : KeyGen pBits qBits t n q rDraws hDraws xDraw coeffDraws = .ok (pub, priv, shares))
    (sel : List Share) (hsel : ∀ s ∈ sel, s ∈ shares)
    (hcount : sel.length = t) (hids : (sel.map Share.ID).Nodup) :
    tOutOfNRecover sel q = priv.X
      ∧ ∀ (msg : List Nat) (rDraw : Nat) (ctxt : Ciphertext) (dshares : List Share),
          Enc pub msg rDraw = .ok ctxt →
          Outcome.mapM (fun s => Dec pub s ctxt) sel = .ok dshares →
          Recover pub dshares ctxt = .ok msg :=
  roundtrip_core hq hkg sel hsel hids (by omega)

theorem c10_threshold_t_witness :
    KeyGen 8 4 2 3 13 [fun _ => 0] [0] 5 [7] = .ok (w1pub, ⟨5⟩, w1shares)
      ∧ tOutOfNRecover [⟨1, 12⟩, ⟨3, 0⟩] 13 = 5
      ∧ Recover w1pub w10ds w1ctxt = .ok toyMsg := by
  have hkg : KeyGen 8 4 2 3 13 [fun _ => 0] [0] 5 [7] = .ok (w1pub, ⟨5⟩, w1shares) := by decide
  have h := c10_threshold_t ((isPrime_iff 13).mp (by decide)) hkg [⟨1, 12⟩, ⟨3, 0⟩]
    (by decide) (by decide) (by decide)
  exact ⟨hkg, h.1, h.2 toyMsg 9 w1ctxt w10ds rfl rfl⟩

/-- C2 (code bug): the claimed invariant `bitlength(P) = pBits` fails.
`GenerateSchnorrGroup 11 2` with the valid prime draw q = 3 and an all-zero
randomness draw returns P = 769 of bit length 10 ≠ 11, because `RandomBits 9`
(rBits = 9 ≡ 1 mod 8) forces only one top bit instead of the two its doc comment
promises.  All other claimed invariants hold on this very output. -/
theorem c2_bitlen_violation :
    generateSchnorrGroup 11 2 3 [fun _ => 0] [0] = .ok ⟨769, 3, 408⟩
      ∧ isPrime 769 = true ∧ isPrime 3 = true
      ∧ 769 % 3 = 1 ∧ powMod 408 3 769 = 1 ∧ 408 % 769 ≠ 1
      ∧ bitLen 3 = 2 ∧ bitLen 769 = 10 ∧ (10 : Nat) ≠ 11 := by
  decide

/-- C3: in the toy group P = 23, Q = 11, G = 4 with Y = 16 and the test
ciphertext with R = 3 encrypting "Hello world" zero-padded to 64 bytes, `Dec` maps
the key shares (1,4), (3,14), (4,22) to exactly the decryption shares (1,12),
(3,4), (4,1), and `Recover` on the decryption shares (1,4), (3,4), (4,9) returns
exactly the padded message. -/
theorem c3_toy_vectors :
    Dec toyPub ⟨1, 4⟩ toyCtxt = .ok ⟨1, 12⟩
      ∧ Dec toyPub ⟨3, 14⟩ toyCtxt = .ok ⟨3, 4⟩
      ∧ Dec toyPub ⟨4, 22⟩ toyCtxt = .ok ⟨4, 1⟩
      ∧ Recover toyPub [⟨1, 4⟩, ⟨3, 4⟩, ⟨4, 9⟩] toyCtxt = .ok toyMsg := by
  decide

/-- C4: whenever field construction over P succeeds (modulus at least 2), `Dec`
succeeds and returns the share with the key share's ID and value
`ctxt.R ^ keyShare.Value mod P`, with no cross-validation against `pub` or
`ctxt`; it fails (with the field-construction error) only when field construction
over P fails. -/
theorem c4_dec_spec :
    (∀ (pub : PublicKey) (ks : Share) (ctxt : Ciphertext), 2 ≤ pub.P →
        Dec pub ks ctxt = .ok ⟨ks.ID, powMod ctxt.R ks.Value pub.P⟩)
      ∧ (∀ (pub : PublicKey) (ks : Share) (ctxt : Ciphertext), pub.P < 2 →
        Dec pub ks ctxt = .err .fieldConstruction) := by
  constructor
  · intro pub ks ctxt hp
    exact dec_eq hp ks ctxt
  · intro pub ks ctxt hp
    rw [Dec, newGF, if_neg (by omega)]
    rfl

theorem c4_dec_spec_witness :
    Dec toyPub ⟨1, 4⟩ toyCtxt = .ok ⟨1, powMod toyCtxt.R 4 toyPub.P⟩ :=
  c4_dec_spec.1 toyPub ⟨1, 4⟩ toyCtxt (by decide)

/-- C5 fails as stated: `Recover` hits Go's index-out-of-range fault (an
uncatchable panic, not a typed error) on a ciphertext whose C component is shorter
than 64 bytes. -/
theorem c5_fault_counterexample : Recover toyPub [] ⟨3, []⟩ = .fault := by
  decide

/-- C5 (amended): every operation returns failures as typed errors and never
faults, except exactly these three faults of the Go code: `Recover` faults when
`ctxt.C` is shorter than the 64-byte key (out-of-range indexing), `RandomBits`
faults when `bits ≤ -8` (negative buffer length passed to its allocation), and
`KeyGen` faults when the share count `n` is negative (its first statement
allocates the share slice of length `n`).  Bit counts in [-7, 2] still yield the
typed invalid-argument error, and outside those three cases no operation
faults. -/
theorem c5_no_fault_amended :
    (∀ (bits : Int) (rnd : Nat → Nat), -7 ≤ bits → randomBits bits rnd ≠ .fault)
      ∧ (∀ (bits : Int) (rnd : Nat → Nat), bits ≤ -8 → randomBits bits rnd = .fault)
      ∧ (∀ (pub : PublicKey) (ks : Share) (ctxt : Ciphertext), Dec pub ks ctxt ≠ .fault)
      ∧ (∀ (pub : PublicKey) (msg : List Nat) (r : Nat), Enc pub msg r ≠ .fault)
      ∧ (∀ (pub : PublicKey) (ds : List Share) (ctxt : Ciphertext),
          64 ≤ ctxt.C.length → Recover pub ds ctxt ≠ .fault)
      ∧ (∀ (pBits qBits q : Nat) (rD : List (Nat → Nat)) (hD : List Nat),
          generateSchnorrGroup pBits qBits q rD hD ≠ .fault)
      ∧ (∀ (pBits qBits t : Nat) (n : Int) (q xDraw : Nat) (rD : List (Nat → Nat))
            (hD coeffD : List Nat), 0 ≤ n →
          KeyGen pBits qBits t n q rD hD xDraw coeffD ≠ .fault)
      ∧ (∀ (pBits qBits t : Nat) (n : Int) (q xDraw : Nat) (rD : List (Nat → Nat))
            (hD coeffD : List Nat), n < 0 →
          KeyGen pBits qBits t n q rD hD xDraw coeffD = .fault) := by
  refine ⟨fun bits rnd h => randomBits_ne_fault bits rnd h,
    fun bits rnd h => randomBits_fault bits rnd h, ?_, ?_, ?_, ?_, ?_, ?_⟩
  · intro pub ks ctxt
    rw [Dec]
    exact newGF_bind_ne_fault fun zp => by simp
  · intro pub msg r
    rw [Enc]
    split
    · simp
    · refine newGF_bind_ne_fault fun zq => ?_
      exact newGF_bind_ne_fault fun zp => by simp
  · intro pub ds ctxt hc
    rw [Recover]
    refine newGF_bind_ne_fault fun zp => ?_
    refine newGF_bind_ne_fault fun zq => ?_
    rw [if_pos (by rw [sha512_length]; exact hc)]
    simp
  · exact fun pBits qBits q rD hD => generateSchnorrGroup_ne_fault pBits qBits q rD hD
  · exact fun pBits qBits t n q x rD hD cD hn => keyGen_ne_fault pBits qBits t n q x rD hD cD hn
  · exact fun pBits qBits t n q x rD hD cD hn => keyGen_fault_of_neg pBits qBits t n q x rD hD cD hn

theorem c5_no_fault_witness :
    randomBits 2 (fun _ => 0) ≠ .fault
      ∧ randomBits (-9) (fun _ => 0) = .fault
      ∧ Recover toyPub [⟨1, 4⟩, ⟨3, 4⟩, ⟨4, 9⟩] toyCtxt ≠ .fault
      ∧ KeyGen 8 4 2 3 13 [fun _ => 0] [0] 5 [7] ≠ .fault
      ∧ KeyGen 8 4 2 (-1) 13 [fun _ => 0] [0] 5 [7] = .fault :=
  ⟨c5_no_fault_amended.1 2 (fun _ => 0) (by omega),
   c5_no_fault_amended.2.1 (-9) (fun _ => 0) (by omega),
   c5_no_fault_amended.2.2.2.2.1 toyPub [⟨1, 4⟩, ⟨3, 4⟩, ⟨4, 9⟩] toyCtxt (by decide),
   c5_no_fault_amended.2.2.2.2.2.2.1 8 4 2 3 13 5 [fun _ => 0] [0] [7] (by omega),
   c5_no_fault_amended.2.2.2.2.2.2.2 8 4 2 (-1) 13 5 [fun _ => 0] [0] [7] (by omega)⟩

/-- C6 fails as stated: with qBits = 9 < pBits = 10 and a valid 9-bit prime draw,
`GenerateSchnorrGroup` fails with the invalid-argument error propagated from
`RandomBits`, because rBits = pBits - qBits = 1 ≤ 2. -/
theorem c6_counterexample :
    generateSchnorrGroup 10 9 389 [fun _ => 0] [] = .err .invalidArg := by
  decide

/-- C6 (amended): `GenerateSchnorrGroup` fails with an invalid-argument error
whenever qBits ≥ pBits; when qBits < pBits and additionally pBits - qBits > 2 it
never fails at all in this model (rejection iterations are not surfaced as
errors; only a randomness-source failure, which the model excludes by supplying
the draws, would be propagated); but when pBits - qBits ≤ 2 the RandomBits
invalid-argument error leaks through even though qBits < pBits. -/
theorem c6_amended :
    (∀ (pBits qBits q : Nat) (rD : List (Nat → Nat)) (hD : List Nat), pBits ≤ qBits →
        generateSchnorrGroup pBits qBits q rD hD = .err .invalidArg)
      ∧ (∀ (pBits qBits q : Nat) (rD : List (Nat → Nat)) (hD : List Nat) (e : GoError),
          qBits < pBits → 2 < pBits - qBits →
          generateSchnorrGroup pBits qBits q rD hD ≠ .err e) := by
  constructor
  · intro pBits qBits q rD hD h
    rw [generateSchnorrGroup, if_pos (by omega)]
  · intro pBits qBits q rD hD e h1 h2
    rw [generateSchnorrGroup, if_neg (by omega)]
    refine Outcome.bind_ne_err (fun e' => findP_ne_err q (pBits - qBits) h2 rD 0 e') fun P => ?_
    refine Outcome.bind_ne_err (fun e' => findG_ne_err P q hD e') fun G => ?_
    simp

theorem c6_amended_witness :
    generateSchnorrGroup 10 10 389 [] [] = .err .invalidArg
      ∧ generateSchnorrGroup 10 7 389 [] [] ≠ .err .invalidArg :=
  ⟨c6_amended.1 10 10 389 [] [] (by omega),
   c6_amended.2 10 7 389 [] [] .invalidArg (by omega) (by omega)⟩

/-- C7 (code bug): `RandomBits 9` (bits ≡ 1 mod 8, padding z = 7) forces only the
single most-significant requested bit, not two: with an all-zero draw it returns
[0x01, 0x00] = 256, whose second-most-significant requested bit (bit 7) is 0 —
contradicting the claim and RandomBits' own doc comment.  The byte count,
padding-bit zeroing, and the bits ≤ 2 error behave as claimed. -/
theorem c7_second_bit_not_forced :
    randomBits 9 (fun _ => 0) = .ok [1, 0]
      ∧ bytesToNat [1, 0] = 256
      ∧ Nat.testBit 256 8 = true
      ∧ Nat.testBit 256 7 = false
      ∧ randomBits 24 (fun _ => 0) = .ok [192, 0, 0]
      ∧ randomBits 14 (fun _ => 255) = .ok [63, 255]
      ∧ randomBits 2 (fun _ => 0) = .err .invalidArg := by
  decide

/-- C8: `Recover` performs no validation of the share list: for every list of
decryption shares — including the empty list, lists shorter than `t + 1` and lists
with duplicate IDs — it returns without error (given a well-formed public key and
ciphertext), silently producing a wrong message via the Lagrange math rather than
reporting an error, as witnessed on the toy vectors with a duplicated share and a
single share. -/
theorem c8_recover_no_validation :
    (∀ (pub : PublicKey) (ds : List Share) (ctxt : Ciphertext),
        2 ≤ pub.P → 2 ≤ pub.Q → 64 ≤ ctxt.C.length →
        ∃ m, Recover pub ds ctxt = .ok m)
      ∧ (∃ m, Recover toyPub [⟨1, 4⟩, ⟨1, 4⟩] toyCtxt = .ok m ∧ m ≠ toyMsg)
      ∧ (∃ m, Recover toyPub [⟨1, 4⟩] toyCtxt = .ok m ∧ m ≠ toyMsg) := by
  refine ⟨?_, ?_, ?_⟩
  · intro pub ds ctxt hp hq hc
    rw [recover_eq hp hq ds ctxt hc]
    exact ⟨_, rfl⟩
  · exact ⟨(Recover toyPub [⟨1, 4⟩, ⟨1, 4⟩] toyCtxt).getD [], by decide, by decide⟩
  · exact ⟨(Recover toyPub [⟨1, 4⟩] toyCtxt).getD [], by decide, by decide⟩

theorem c8_recover_witness :
    ∃ m, Recover toyPub [] toyCtxt = .ok m :=
  c8_recover_no_validation.1 toyPub [] toyCtxt (by decide) (by decide) (by decide)

/-- C9: `Enc` fails with the invalid-argument error on every message whose length
is not exactly 64 bytes, and succeeds on every 64-byte message for a well-formed
public key (field construction over P and Q succeeding). -/
theorem c9_enc_length_check :
    (∀ (pub : PublicKey) (msg : List Nat) (r : Nat), msg.length ≠ 64 →
        Enc pub msg r = .err .invalidArg)
      ∧ (∀ (pub : PublicKey) (msg : List Nat) (r : Nat),
          msg.length = 64 → 2 ≤ pub.P → 2 ≤ pub.Q →
          ∃ c, Enc pub msg r = .ok c) := by
  constructor
  · intro pub msg r h
    rw [Enc, if_pos h]
  · intro pub msg r h hp hq
    rw [Enc, if_neg (by omega), newGF_ok hq]
    simp only [Outcome.bind]
    rw [newGF_ok hp]
    simp only [Outcome.bind]
    exact ⟨_, rfl⟩

theorem c9_enc_length_witness :
    Enc toyPub [0] 0 = .err .invalidArg
      ∧ ∃ c, Enc toyPub toyMsg 4 = .ok c :=
  ⟨c9_enc_length_check.1 toyPub [0] 0 (by decide),
   c9_enc_length_check.2 toyPub toyMsg 4 (by decide) (by decide) (by decide)⟩

end DistElgamal
